import Mathlib

/-!
# Verification of the IntelliScraper path-similarity engine

Shallow embedding of `intelliscraper/utils.py`.  Python strings are
modelled as `List Char` (`Str`); the BeautifulSoup element tree is
modelled as a tree of tags (`Node`).  The parser's root object (the
soup) sits above the top-level elements and carries the truthy name
`"[document]"`, so the upward walk of `generate_element_path` — which
stops only at a falsy name or a missing parent — includes the root's
descriptor `"[document] "` as the first segment of every path and stops
at the root's missing parent (the source's `find_element_by_path` skips
`"[document]"` segments precisely because generated paths contain
them).  The
`CountVectorizer` / `cosine_similarity` pipeline from scikit-learn is
modelled exactly at the level the source uses it: bag-of-words token
counts over the fitted vocabulary, with cosine similarities compared
exactly (similarity values are represented by the pair
(dot², ‖u‖²·‖v‖²), which is ordered the same way as the cosine itself
since all counts are non-negative).  All definitions are executable and
kernel-reducible so that concrete witnesses evaluate by `decide`.
-/

/-- Python strings are modelled as lists of characters. -/
abbrev Str := List Char

/-- Coerce a Lean string literal into the model's string type. -/
def strL (s : String) : Str := s.toList

/-- The separator `" -> "` used by `generate_element_path` /
`find_element_by_path`. -/
def sepArrow : Str := strL " -> "

/-- `sep.join parts` (Python `' -> '.join`, `' '.join`, …). -/
def joinSep (sep : Str) : List Str → Str
  | [] => []
  | [x] => x
  | x :: y :: xs => x ++ sep ++ joinSep sep (y :: xs)

/-- A character of Python's regex class `\w` (ASCII reading: the source
only ever feeds it tag names and attribute names/values). -/
def isWordChar (c : Char) : Bool := c.isAlphanum || c == '_'

/-- Python's single-quote character, used by `str`'s repr of list values. -/
def quoteChar : Char := Char.ofNat 39

/-- Substring test: Python's `needle in haystack` for strings. -/
def containsSub (needle : Str) : Str → Bool
  | [] => needle == []
  | c :: rest => needle.isPrefixOf (c :: rest) || containsSub needle rest

/-- Python `s.strip(chars)`: drop leading and trailing characters that
belong to `chars`. -/
def stripChars (chars : Str) (s : Str) : Str :=
  ((s.dropWhile (chars.contains ·)).reverse.dropWhile (chars.contains ·)).reverse

/-- Python `s.strip()` (whitespace). -/
def pyStripWs (s : Str) : Str :=
  ((s.dropWhile (·.isWhitespace)).reverse.dropWhile (·.isWhitespace)).reverse

/-- Python `s.split(ch)` for a single-character separator, keeping empty
pieces (`"a,,b" → ["a","","b"]`, `"" → [""]`). -/
def splitChar (ch : Char) : Str → List Str
  | [] => [[]]
  | c :: rest =>
    if c == ch then [] :: splitChar ch rest
    else
      match splitChar ch rest with
      | [] => [[c]]
      | x :: xs => (c :: x) :: xs

/-- Python `s.split(ch, 1)`: the part before the first `ch` and the part
after it (the source only calls it when `ch` occurs in `s`). -/
def splitOnce (ch : Char) : Str → Str × Str
  | [] => ([], [])
  | c :: rest =>
    if c == ch then ([], rest)
    else
      let p := splitOnce ch rest
      (c :: p.1, p.2)

/-- Fuelled worker for Python `path.split(" -> ")`: scan left to right,
splitting at each non-overlapping occurrence of the separator.  The fuel
is an upper bound on the number of scan steps; the wrapper passes
`length + 1`, which is always enough since every step consumes at least
one character. -/
def pySplitAuxF : Nat → Str → Str → List Str
  | 0, acc, s => [acc.reverse ++ s]
  | _ + 1, acc, [] => [acc.reverse]
  | f + 1, acc, c :: rest =>
    if sepArrow.isPrefixOf (c :: rest) then acc.reverse :: pySplitAuxF f [] ((c :: rest).drop 4)
    else pySplitAuxF f (c :: acc) rest

/-- Python `path.split(" -> ")`. -/
def pySplit (s : Str) : List Str := pySplitAuxF (s.length + 1) [] s

/-- Fuelled worker for Python `re.split(r'\s+', s)`: split on maximal
whitespace runs (a leading/trailing run yields an empty piece, as the
regex split does). -/
def splitWsAuxF : Nat → Str → Str → List Str
  | 0, acc, s => [acc.reverse ++ s]
  | f + 1, acc, s =>
    match s with
    | [] => [acc.reverse]
    | c :: rest =>
      if c.isWhitespace then acc.reverse :: splitWsAuxF f [] (rest.dropWhile (·.isWhitespace))
      else splitWsAuxF f (c :: acc) rest

/-- Python `re.split(r'\s+', s)`. -/
def splitWs (s : Str) : List Str := splitWsAuxF (s.length + 1) [] s

/-! ## Data model: attribute values, tags, the element tree -/

/-- A BeautifulSoup attribute value: a scalar string or a multi-valued
list (e.g. `class`). -/
inductive AttrValue where
  | str (s : Str)
  | list (l : List Str)
deriving DecidableEq

/-- A tag: name plus attribute mapping in native iteration (insertion)
order.  The source's upward walk loops `while element and element.name`,
so an element with a falsy (empty) name would stop it; BeautifulSoup's
document root, however, carries the truthy name `"[document]"` and is
therefore included in generated paths, the walk stopping at its missing
parent. -/
structure Tag where
  name : Str
  attrs : List (Str × AttrValue)
deriving DecidableEq

/-- One element of the parsed tree, owning its children. -/
inductive Node where
  | node (tag : Tag) (children : List Node)

/-- Tag carried by a node. -/
def Node.tagOf : Node → Tag
  | .node t _ => t

/-- Children of a node. -/
def Node.childrenOf : Node → List Node
  | .node _ c => c

/-- A document is the root sentinel's list of top-level nodes. -/
abbrev Doc := List Node

/-- Python `repr` of a string as used by `str(list)`; the source's
attribute values carry no quote characters, so no escaping is modelled. -/
def pyReprStr (s : Str) : Str := quoteChar :: s ++ [quoteChar]

/-- Python `f"{v}"` for an attribute value: a scalar prints as itself, a
list prints as `['a', 'b']` (the parser's native stringification). -/
def attrValueStr : AttrValue → Str
  | .str s => s
  | .list l => '[' :: joinSep (strL ", ") (l.map pyReprStr) ++ [']']

/-- `element_to_string`: `f"{element.name} {' '.join(f'{k}={v}' ...)}"`. -/
def element_to_string (t : Tag) : Str :=
  t.name ++ ' ' :: joinSep [' '] (t.attrs.map (fun kv => kv.1 ++ '=' :: attrValueStr kv.2))

/-- The `while element and element.name:` loop of
`generate_element_path`, reading the upward parent chain (self first):
append each element's descriptor until an element with a falsy (empty)
name or the end of the chain (a missing parent).  BeautifulSoup's root
has the truthy name `"[document]"`, so on real chains the walk runs to
the end. -/
def walkUp : List Tag → List Str
  | [] => []
  | t :: rest => if t.name = [] then [] else element_to_string t :: walkUp rest

/-- `generate_element_path` on an explicit upward parent chain:
`' -> '.join(reversed(path_parts))`. -/
def generate_element_path (chain : List Tag) : Str :=
  joinSep sepArrow (walkUp chain).reverse

/-- An element as returned by `soup.find_all()`: its own tag plus the
chain of element ancestors (nearest first); the parser's root object is
not among them — `Elem.chain` appends it. -/
structure Elem where
  tag : Tag
  anc : List Tag
deriving DecidableEq

/-- The parser's root object above the top-level elements: BeautifulSoup
gives it the (truthy) name `"[document]"` and no attributes. -/
def rootSentinel : Tag := ⟨strL "[document]", []⟩

/-- The full upward chain of an element inside a document: itself, its
element ancestors, then the `"[document]"` root, whose missing parent
ends the chain. -/
def Elem.chain (e : Elem) : List Tag := e.tag :: e.anc ++ [rootSentinel]

/-- `generate_element_path(el)` for an element of a document. -/
def generate_element_path_of (e : Elem) : Str := generate_element_path e.chain

mutual

/-- Elements of a subtree in document (pre)order, each with its ancestor
chain (`anc` = ancestors of the subtree root, nearest first). -/
def nodeElems (anc : List Tag) : Node → List Elem
  | .node t cs => ⟨t, anc⟩ :: forestElems (t :: anc) cs

/-- Elements of a forest in document (pre)order. -/
def forestElems (anc : List Tag) : List Node → List Elem
  | [] => []
  | n :: ns => nodeElems anc n ++ forestElems anc ns

end

/-- `soup.find_all()`: every element of the document in document order. -/
def findAll (doc : Doc) : List Elem := forestElems [] doc

/-- `parse_rules_to_paths`: fold `paths.extend(value)` over the rule
mapping in its iteration order, discarding the labels. -/
def parse_rules_to_paths (rules_json : List (Str × List Str)) : List Str :=
  rules_json.foldl (fun paths kv => paths ++ kv.2) []

/-! ## The vectorizer and the similarity matcher

`CountVectorizer` with default settings: documents are lowercased and
tokenized by `\b\w\w+\b` (maximal word-character runs of length ≥ 2); a
transformed document is its vector of token counts over the fitted
vocabulary, out-of-vocabulary tokens being dropped.  `cosine_similarity`
between count vectors `u`, `v` is `⟨u,v⟩ / (‖u‖‖v‖)` with a zero vector
giving similarity 0.  Since all counts are non-negative, comparing two
cosines is the same as comparing the exact fractions
`⟨u,v⟩² / (‖u‖²‖v‖²)`, which is how similarity values are represented
here (`Sim`), keeping every computation exact and kernel-executable. -/

/-- Fuelled worker collecting the maximal word-character runs of a
string. -/
def tokenRunsF : Nat → Str → List Str
  | 0, _ => []
  | _ + 1, [] => []
  | f + 1, c :: rest =>
    if isWordChar c then
      (c :: rest.takeWhile isWordChar) :: tokenRunsF f (rest.dropWhile isWordChar)
    else
      tokenRunsF f rest

/-- `CountVectorizer` tokenization: lowercase, then keep the maximal
word-character runs of length at least 2. -/
def cvTokenize (s : Str) : List Str :=
  (tokenRunsF (s.length + 1) (s.map Char.toLower)).filter (fun t => 2 ≤ t.length)

/-- `CountVectorizer().fit(docs)`: the vocabulary is the set of tokens of
the corpus (scikit-learn stores it sorted; the order of the vocabulary
list never affects dot products, so duplicates are simply removed
here). -/
def cvFit (docs : List Str) : List Str := (docs.flatMap cvTokenize).dedup

/-- `vectorizer.transform([s])`: counts of each vocabulary token in
`s`. -/
def transform (vocab : List Str) (s : Str) : List Nat :=
  vocab.map (fun t => (cvTokenize s).count t)

/-- Dot product of two count vectors. -/
def dotN (u v : List Nat) : Nat := (List.zipWith (· * ·) u v).sum

/-- A similarity value: the exact fraction `num/den`, with `den > 0`
whenever produced by `simSq`.  Two cosine similarities of non-negative
vectors compare exactly as these fractions do under `simLt`. -/
structure Sim where
  num : Nat
  den : Nat
deriving DecidableEq

/-- Strict comparison of similarity fractions (cross multiplication). -/
def simLt (x y : Sim) : Bool := x.num * y.den < y.num * x.den

/-- The squared cosine similarity of two count vectors as an exact
fraction; a zero vector on either side yields similarity 0, as
scikit-learn's `cosine_similarity` does. -/
def simSq (u v : List Nat) : Sim :=
  if dotN u u = 0 ∨ dotN v v = 0 then ⟨0, 1⟩
  else ⟨dotN u v * dotN u v, dotN u u * dotN v v⟩

/-- `numpy`'s `argmax` scan: value and index of the first occurrence of
the maximum of `x :: xs`. -/
def firstMax (x : Sim) : List Sim → Sim × Nat
  | [] => (x, 0)
  | y :: ys =>
    let p := firstMax y ys
    if simLt x p.1 then (p.1, p.2 + 1) else (x, 0)

/-- `similarities[0].argmax()`: `none` models the `ValueError` numpy
raises on an empty sequence. -/
def npArgmax : List Sim → Option Nat
  | [] => none
  | x :: xs => some (firstMax x xs).2

/-- Failure modes of the similarity matcher relevant to the spec's error
taxonomy: the `EmptyDocument` condition the spec calls for, and the
unrelated index/argmax error numpy actually raises on an empty candidate
list. -/
inductive MatchSignal where
  | emptyDocument
  | indexError
deriving DecidableEq

/-- `all_elements_paths`: the candidate path of every element of the
document, in document order. -/
def candidatePaths (doc : Doc) : List Str :=
  (findAll doc).map generate_element_path_of

/-- The list of similarities between the target path's vector and every
candidate path's vector. -/
def candidateSims (doc : Doc) (path : Str) (vocab : List Str) : List Sim :=
  (candidatePaths doc).map (fun p => simSq (transform vocab path) (transform vocab p))

/-- `find_most_similar_element_path(html, path, vectorizer)`: build every
element's path, vectorize target and candidates in the fitted
vocabulary, take cosine similarities and return the candidate at the
argmax.  There is no guard for an empty document: with zero candidates
the `argmax` call raises numpy's error, modelled by `.error
.indexError`. -/
def find_most_similar_element_path (doc : Doc) (path : Str) (vocab : List Str) :
    Except MatchSignal Str :=
  let all_elements_paths := candidatePaths doc
  let path_vector := transform vocab path
  let similarities := (all_elements_paths.map (transform vocab)).map (simSq path_vector)
  match npArgmax similarities with
  | none => .error .indexError
  | some i => .ok (all_elements_paths.getD i [])

/-- `get_most_similar_paths(html, paths, vectorizer)`: run the matcher
once per target path, appending each truthy (non-empty) result; an
exception raised by the matcher propagates. -/
def get_most_similar_paths (doc : Doc) (paths : List Str) (vocab : List Str) :
    Except MatchSignal (List Str) :=
  match paths with
  | [] => .ok []
  | p :: rest =>
    match find_most_similar_element_path doc p vocab with
    | .error e => .error e
    | .ok m =>
      match get_most_similar_paths doc rest vocab with
      | .error e => .error e
      | .ok ms => .ok (if m.isEmpty then ms else m :: ms)

/-! ## The attribute codec

`split_attributes_improved` is `re.findall` of
`(\w+(?:-\w+)*=[^\s\[]*(?:\[[^\]]*\])?)` and the bracket branch of
`parse_attributes` is `re.findall` of `(\w+)=\[(.*?)\]|(\w+)=(\S+)`.
Both are embedded as left-to-right scanners: at each position try to
match (greedy pieces are maximal runs — no other backtracking can
succeed for these patterns because each quantified class is disjoint
from the character that must follow it); on success emit the match and
resume after it, otherwise advance one character. -/

/-- A character matched by `[^\s\[]` (attribute-value characters). -/
def isValChar (c : Char) : Bool := !c.isWhitespace && !(c == '[')

/-- Split at the first `]`: `some (before, after)`, or `none` when the
string has no `]` (the lazy `\[[^\]]*\]` then fails). -/
def takeUntilRB : Str → Option (Str × Str)
  | [] => none
  | c :: rest =>
    if c == ']' then some ([], rest)
    else
      match takeUntilRB rest with
      | none => none
      | some p => some (c :: p.1, p.2)

/-- Fuelled scanner for the greedy `(?:-\w+)*` groups after a name. -/
def scanGroupsF : Nat → Str → Str × Str
  | 0, s => ([], s)
  | f + 1, s =>
    match s with
    | [] => ([], [])
    | c :: rest =>
      if c = '-' then
        match rest.takeWhile isWordChar with
        | [] => ([], c :: rest)
        | _ :: _ =>
          let p := scanGroupsF f (rest.dropWhile isWordChar)
          (c :: rest.takeWhile isWordChar ++ p.1, p.2)
      else ([], c :: rest)

/-- The hyphenated attribute name `\w+(?:-\w+)*` at the head of `s`
(`([], s)` when `s` does not start with a word character). -/
def scanName (s : Str) : Str × Str :=
  match s.takeWhile isWordChar with
  | [] => ([], s)
  | w =>
    let p := scanGroupsF s.length (s.dropWhile isWordChar)
    (w ++ p.1, p.2)

/-- The optional bracket part `(?:\[[^\]]*\])?`: consume `[...]` if the
head is `[` and a closing `]` exists, else consume nothing. -/
def scanBracket : Str → Str × Str
  | [] => ([], [])
  | c :: rest =>
    if c = '[' then
      match takeUntilRB rest with
      | some p => (c :: p.1 ++ [']'], p.2)
      | none => ([], c :: rest)
    else ([], c :: rest)

/-- Try to match one token of `split_attributes_improved`'s pattern at
the head of `s`; on success return the token and the rest of `s`. -/
def scanTokenAt (s : Str) : Option (Str × Str) :=
  match scanName s with
  | ([], _) => none
  | (name, rest) =>
    match rest with
    | [] => none
    | c :: r2 =>
      if c = '=' then
        let v := r2.takeWhile isValChar
        let b := scanBracket (r2.dropWhile isValChar)
        some (name ++ c :: (v ++ b.1), b.2)
      else none

/-- Fuelled `re.findall` loop for `split_attributes_improved`. -/
def saiLoopF : Nat → Str → List Str
  | 0, _ => []
  | _ + 1, [] => []
  | f + 1, c :: rest =>
    match scanTokenAt (c :: rest) with
    | some (t, r) => t :: saiLoopF f r
    | none => saiLoopF f rest

/-- `split_attributes_improved(attr_str)`. -/
def split_attributes_improved (attr_str : Str) : List Str :=
  saiLoopF (attr_str.length + 1) attr_str

/-- One match of the bracket-branch regex
`(\w+)=\[(.*?)\]|(\w+)=(\S+)`. -/
inductive BrPair where
  | brList (k c : Str)
  | brScalar (k v : Str)

/-- Try to match the bracket-branch regex at the head of `s`: first the
`(\w+)=\[(.*?)\]` alternative (lazy: up to the first `]`), then
`(\w+)=(\S+)`. -/
def bfAt (s : Str) : Option (BrPair × Str) :=
  match s.takeWhile isWordChar with
  | [] => none
  | w =>
    match s.dropWhile isWordChar with
    | [] => none
    | c :: r2 =>
      if c = '=' then
        match r2 with
        | '[' :: r3 =>
          match takeUntilRB r3 with
          | some p => some (.brList w p.1, p.2)
          | none =>
            -- no closing ']': fall back to `(\w+)=(\S+)`, whose `\S+`
            -- starts with the '[' itself
            some (.brScalar w (r2.takeWhile (fun c => !c.isWhitespace)),
                  r2.dropWhile (fun c => !c.isWhitespace))
        | _ =>
          match r2.takeWhile (fun c => !c.isWhitespace) with
          | [] => none
          | v => some (.brScalar w v, r2.dropWhile (fun c => !c.isWhitespace))
      else none

/-- Fuelled `re.findall` loop for the bracket branch. -/
def bfaLoopF : Nat → Str → List BrPair
  | 0, _ => []
  | _ + 1, [] => []
  | f + 1, c :: rest =>
    match bfAt (c :: rest) with
    | some (p, r) => p :: bfaLoopF f r
    | none => bfaLoopF f rest

/-- `re.findall(r'(\w+)=\[(.*?)\]|(\w+)=(\S+)', attr_str)`. -/
def bracketFindAll (attr_str : Str) : List BrPair :=
  bfaLoopF (attr_str.length + 1) attr_str

/-- Python dict assignment `attrs[key] = value`: update in place if the
key is present (insertion order preserved), else append. -/
def dictInsert (m : List (Str × AttrValue)) (k : Str) (v : AttrValue) :
    List (Str × AttrValue) :=
  if m.any (fun p => p.1 == k) then m.map (fun p => if p.1 == k then (k, v) else p)
  else m ++ [(k, v)]

/-- The characters stripped from each bracketed list value
(`' "[]\''`). -/
def listTrimSet : Str := ' ' :: '"' :: '[' :: ']' :: [quoteChar]

/-- The characters stripped from each scalar value (`' "\''`). -/
def scalarTrimSet : Str := ' ' :: '"' :: [quoteChar]

/-- Process one match of the bracket-branch regex into the dict. -/
def applyBrPair (attrs : List (Str × AttrValue)) : BrPair → List (Str × AttrValue)
  | .brList k c =>
    dictInsert attrs k (.list ((splitChar ',' c).map (stripChars listTrimSet)))
  | .brScalar k v =>
    dictInsert attrs k (.str (stripChars scalarTrimSet v))

/-- The no-bracket branch of `parse_attributes`'s inner loop: insert a
`key=value` piece with the value stripped of quotes, ignore pieces
without `=`. -/
def scalarStep (attrs : List (Str × AttrValue)) (attr : Str) : List (Str × AttrValue) :=
  if attr.contains '=' then
    let p := splitOnce '=' attr
    dictInsert attrs p.1 (.str (stripChars scalarTrimSet p.2))
  else attrs

/-- One iteration of `parse_attributes`'s loop over the tokens: a token
containing `[` re-runs the bracket-branch regex over the whole
`attr_str`; a token without `[` is whitespace-split and processed piece
by piece. -/
def parseStep (attr_str : Str) (attrs : List (Str × AttrValue)) (attrTok : Str) :
    List (Str × AttrValue) :=
  if attrTok.contains '[' then (bracketFindAll attr_str).foldl applyBrPair attrs
  else (splitWs (pyStripWs attrTok)).foldl scalarStep attrs

/-- `parse_attributes(attr_str)`: tokenize with
`split_attributes_improved` and fold the per-token step into the
(initially empty, insertion-ordered) dict. -/
def parse_attributes (attr_str : Str) : List (Str × AttrValue) :=
  (split_attributes_improved attr_str).foldl (parseStep attr_str) []

/-! ## The reverse locator -/

/-- The current element of the reverse locator's walk: the soup object
itself (document root) or an element of the tree. -/
inductive Cur where
  | root (doc : Doc)
  | el (n : Node)

mutual

/-- Proper descendants of a node, in document (pre)order. -/
def nodeDesc : Node → List Node
  | .node _ cs => forestNodes cs

/-- All nodes of a forest, in document (pre)order. -/
def forestNodes : List Node → List Node
  | [] => []
  | n :: ns => n :: nodeDesc n ++ forestNodes ns

end

/-- Descendants searched by `current_element.find(...)`. -/
def curDesc : Cur → List Node
  | .root d => forestNodes d
  | .el n => nodeDesc n

/-- Does a node match a `find(tag, attrs)` filter?  A falsy (empty) tag
name matches any element; each filter attribute must be present with the
same value (the subset-match reading the spec allows). -/
def matchesFilter (n : Node) (tag : Str) (attrs : List (Str × AttrValue)) : Bool :=
  (tag == [] || n.tagOf.name == tag) &&
    attrs.all (fun kv =>
      ((n.tagOf.attrs.find? (fun p => p.1 == kv.1)).map (fun p => p.2)) == some kv.2)

/-- `current_element.find(tag, attrs)`: the first matching descendant in
document order, if any. -/
def bsFind (cur : Cur) (tag : Str) (attrs : List (Str × AttrValue)) : Option Node :=
  (curDesc cur).find? (fun n => matchesFilter n tag attrs)

/-- The tag extracted from a path segment by
`re.match(r'(\w+)(.*)', part)`: the maximal leading word-character run
(empty if the match fails). -/
def segTag (part : Str) : Str := part.takeWhile isWordChar

/-- The attribute substring of a path segment: empty when the regex
match fails, else the remainder, stripped. -/
def segAttrStr (part : Str) : Str :=
  if segTag part = [] then [] else pyStripWs (part.dropWhile isWordChar)

/-- One iteration of `find_element_by_path`'s loop: skip segments
containing `"[document]"`; otherwise look the segment up among the
current element's descendants, advancing only when something was
found. -/
def feb_step (cur : Cur) (part : Str) : Cur :=
  if containsSub (strL "[document]") part then cur
  else
    match bsFind cur (segTag part) (parse_attributes (segAttrStr part)) with
    | some el => .el el
    | none => cur

/-- `find_element_by_path(html, path)`: walk the `" -> "`-separated
segments from the soup root. -/
def find_element_by_path (doc : Doc) (path : Str) : Cur :=
  (pySplit path).foldl feb_step (.root doc)

/-- Observable identity of the locator's result: the tag name of the
element reached (`none` for the document root). -/
def curName : Cur → Option Str
  | .root _ => none
  | .el n => some n.tagOf.name

/-! ## General lemmas -/

theorem foldl_append_eq (rules : List (Str × List Str)) :
    ∀ acc : List Str,
      rules.foldl (fun paths kv => paths ++ kv.2) acc = acc ++ (rules.map Prod.snd).flatten := by
  induction rules with
  | nil => intro acc; simp
  | cons kv rest ih => intro acc; simp [List.foldl_cons, ih]

theorem simLt_irrefl (a : Sim) : simLt a a = false := by
  simp [simLt]

/-- Transitivity of `¬ simLt` (the "≤" reading), valid when the middle
denominator is positive — which holds for every value `simSq`
produces. -/
theorem simLe_trans {a b c : Sim} (hb : 0 < b.den)
    (h1 : simLt b a = false) (h2 : simLt c b = false) : simLt c a = false := by
  simp only [simLt, decide_eq_false_iff_not, Nat.not_lt] at h1 h2 ⊢
  have h3 : a.num * c.den * b.den ≤ c.num * a.den * b.den := by
    calc a.num * c.den * b.den = a.num * b.den * c.den := by ring
      _ ≤ b.num * a.den * c.den := mul_le_mul_right' h1 c.den
      _ = b.num * c.den * a.den := by ring
      _ ≤ c.num * b.den * a.den := mul_le_mul_right' h2 a.den
      _ = c.num * a.den * b.den := by ring
  exact Nat.le_of_mul_le_mul_right h3 hb

/-- Every similarity fraction `simSq` produces has a positive
denominator. -/
theorem simSq_den_pos (u v : List Nat) : 0 < (simSq u v).den := by
  unfold simSq
  split
  · exact Nat.one_pos
  · next h =>
    push_neg at h
    exact Nat.pos_of_ne_zero (Nat.mul_ne_zero h.1 h.2)

/-- Full specification of the `argmax` scan `firstMax`: the returned
value is an element of the list attaining the maximum, the returned
index points at it, and every earlier entry is strictly smaller (the
first occurrence of the maximum wins). -/
theorem firstMax_spec (d : Sim) :
    ∀ (xs : List Sim) (x : Sim), (∀ y ∈ x :: xs, 0 < y.den) →
      (firstMax x xs).1 ∈ x :: xs
      ∧ (firstMax x xs).2 < (x :: xs).length
      ∧ (x :: xs).getD (firstMax x xs).2 d = (firstMax x xs).1
      ∧ (∀ y ∈ x :: xs, simLt (firstMax x xs).1 y = false)
      ∧ (∀ j, j < (firstMax x xs).2 → simLt ((x :: xs).getD j d) (firstMax x xs).1 = true) := by
  intro xs
  induction xs with
  | nil =>
    intro x _
    refine ⟨List.mem_singleton_self x, by simp [firstMax], by simp [firstMax], ?_, ?_⟩
    · intro y hy
      rw [List.mem_singleton] at hy
      rw [hy]
      simp [firstMax, simLt_irrefl]
    · intro j hj
      simp [firstMax] at hj
  | cons y ys ih =>
    intro x hall
    have hall' : ∀ z ∈ y :: ys, 0 < z.den := fun z hz => hall z (List.mem_cons_of_mem x hz)
    obtain ⟨ihmem, ihlt, ihget, ihmax, ihfirst⟩ := ih y hall'
    have hfx : firstMax x (y :: ys) =
        if simLt x (firstMax y ys).1 then ((firstMax y ys).1, (firstMax y ys).2 + 1)
        else (x, 0) := rfl
    by_cases hc : simLt x (firstMax y ys).1 = true
    · rw [hfx, if_pos hc]
      refine ⟨List.mem_cons_of_mem x ihmem, by simpa using ihlt, by simpa using ihget, ?_, ?_⟩
      · intro z hz
        rcases List.mem_cons.mp hz with hz | hz
        · -- z is x itself: the max is not below x since x is below the max
          rw [hz]
          cases hmx : simLt (firstMax y ys).1 x with
          | false => rfl
          | true =>
            exfalso
            simp only [simLt, decide_eq_true_eq] at hc hmx
            omega
        · exact ihmax z hz
      · intro j hj
        cases j with
        | zero => simpa using hc
        | succ j => exact ihfirst j (by simpa using hj)
    · rw [hfx, if_neg hc]
      have hxle : simLt x (firstMax y ys).1 = false := by
        cases h : simLt x (firstMax y ys).1
        · rfl
        · exact absurd h hc
      have hmden : 0 < (firstMax y ys).1.den := hall' _ ihmem
      refine ⟨List.mem_cons_self x _, by simp, by simp, ?_, ?_⟩
      · intro z hz
        rcases List.mem_cons.mp hz with hz | hz
        · rw [hz]; exact simLt_irrefl x
        · exact simLe_trans hmden (ihmax z hz) hxle
      · intro j hj
        simp at hj

/-- The matcher, rewritten through the named candidate lists. -/
theorem find_eq_sims (doc : Doc) (path : Str) (vocab : List Str) :
    find_most_similar_element_path doc path vocab =
      match npArgmax (candidateSims doc path vocab) with
      | none => .error .indexError
      | some i => .ok ((candidatePaths doc).getD i []) := by
  simp only [find_most_similar_element_path, candidateSims, List.map_map, Function.comp]
  rfl

/-- If no token of `s` is in the vocabulary, its count vector is all
zeros. -/
theorem transform_all_zero {vocab : List Str} {s : Str}
    (h : ∀ t ∈ cvTokenize s, t ∉ vocab) : ∀ n ∈ transform vocab s, n = 0 := by
  intro n hn
  obtain ⟨t, ht, rfl⟩ := List.mem_map.mp hn
  by_contra hne
  have hpos : 0 < (cvTokenize s).count t := Nat.pos_of_ne_zero hne
  exact h t (List.count_pos_iff.mp hpos) ht

/-- A dot product with an all-zero left vector is zero. -/
theorem dotN_zero_left : ∀ (u v : List Nat), (∀ n ∈ u, n = 0) → dotN u v = 0 := by
  intro u
  induction u with
  | nil => intro v _; simp [dotN]
  | cons x u ih =>
    intro v h
    cases v with
    | nil => simp [dotN]
    | cons y v =>
      have hx : x = 0 := h x (List.mem_cons_self x u)
      have hu : dotN u v = 0 := ih v (fun n hn => h n (List.mem_cons_of_mem x hn))
      simp only [dotN, List.zipWith_cons_cons, List.sum_cons] at *
      rw [hx, hu]
      ring

/-- A zero left vector forces similarity 0 against anything. -/
theorem simSq_zero_left {u : List Nat} (h : dotN u u = 0) (v : List Nat) :
    simSq u v = ⟨0, 1⟩ := by
  simp [simSq, h]

/-- Every candidate similarity has a positive denominator. -/
theorem candidateSims_den_pos (doc : Doc) (path : Str) (vocab : List Str) :
    ∀ s ∈ candidateSims doc path vocab, 0 < s.den := by
  intro s hs
  obtain ⟨p, _, rfl⟩ := List.mem_map.mp hs
  exact simSq_den_pos _ _

/-- `List.getD` through a `map`. -/
theorem getD_map {α β : Type} (f : α → β) (l : List α) (i : Nat) (d : α)
    (hi : i < l.length) : (l.map f).getD i (f d) = f (l.getD i d) := by
  induction l generalizing i with
  | nil => simp at hi
  | cons x xs ih =>
    cases i with
    | zero => simp
    | succ i =>
      simp only [List.length_cons] at hi
      have := ih i (by omega)
      simpa using this

/-! ## Claim C7: zero-overlap targets and stable argmax -/

/-- Claim C7 (confirmed).  First part: for a non-empty document, when no
token of the target path is in the fitted vocabulary, the similarity
against every candidate is 0 and the matcher returns the path of the
first element in document order.  Second part (stable argmax): whenever
the argmax over the candidate similarities is index `i`, the matcher
returns the `i`-th candidate path, every candidate before `i` has
strictly smaller similarity and no candidate beats `i` — ties in the
maximum are broken by first occurrence in document order. -/
theorem c7_zero_vector_first_and_stable_argmax :
    (∀ (doc : Doc) (path : Str) (vocab : List Str) (e : Elem) (es : List Elem),
      findAll doc = e :: es →
      (∀ t ∈ cvTokenize path, t ∉ vocab) →
      find_most_similar_element_path doc path vocab = .ok (generate_element_path_of e)
      ∧ ∀ s ∈ candidateSims doc path vocab, s = ⟨0, 1⟩)
    ∧ (∀ (doc : Doc) (path : Str) (vocab : List Str) (i : Nat),
      npArgmax (candidateSims doc path vocab) = some i →
      i < (candidatePaths doc).length
      ∧ find_most_similar_element_path doc path vocab = .ok ((candidatePaths doc).getD i [])
      ∧ (∀ j, j < i →
          simLt ((candidateSims doc path vocab).getD j ⟨0, 1⟩)
            ((candidateSims doc path vocab).getD i ⟨0, 1⟩) = true)
      ∧ (∀ s ∈ candidateSims doc path vocab,
          simLt ((candidateSims doc path vocab).getD i ⟨0, 1⟩) s = false)) := by
  have hstable : ∀ (doc : Doc) (path : Str) (vocab : List Str) (i : Nat),
      npArgmax (candidateSims doc path vocab) = some i →
      i < (candidatePaths doc).length
      ∧ find_most_similar_element_path doc path vocab = .ok ((candidatePaths doc).getD i [])
      ∧ (∀ j, j < i →
          simLt ((candidateSims doc path vocab).getD j ⟨0, 1⟩)
            ((candidateSims doc path vocab).getD i ⟨0, 1⟩) = true)
      ∧ (∀ s ∈ candidateSims doc path vocab,
          simLt ((candidateSims doc path vocab).getD i ⟨0, 1⟩) s = false) := by
    intro doc path vocab i hargmax
    have hlen : (candidateSims doc path vocab).length = (candidatePaths doc).length :=
      List.length_map _ _
    cases hsims : candidateSims doc path vocab with
    | nil => rw [hsims] at hargmax; simp [npArgmax] at hargmax
    | cons s ss =>
      have hden : ∀ y ∈ s :: ss, 0 < y.den := by
        rw [← hsims]; exact candidateSims_den_pos doc path vocab
      obtain ⟨hmem, hlt, hget, hmax, hfirst⟩ := firstMax_spec ⟨0, 1⟩ ss s hden
      rw [hsims, npArgmax] at hargmax
      have hi : i = (firstMax s ss).2 := by
        injection hargmax with h
        exact h.symm
      subst hi
      have hfind := find_eq_sims doc path vocab
      rw [hsims, npArgmax] at hfind
      refine ⟨?_, hfind, ?_, ?_⟩
      · rw [← hlen, hsims]; exact hlt
      · intro j hj
        rw [hget]
        exact hfirst j hj
      · intro z hz
        rw [hget]
        exact hmax z hz
  refine ⟨?_, hstable⟩
  intro doc path vocab e es hdoc hnv
  have hzero : dotN (transform vocab path) (transform vocab path) = 0 :=
    dotN_zero_left _ _ (transform_all_zero hnv)
  have hsims0 : ∀ s ∈ candidateSims doc path vocab, s = ⟨0, 1⟩ := by
    intro s hs
    obtain ⟨p, _, rfl⟩ := List.mem_map.mp hs
    exact simSq_zero_left hzero _
  have hpaths : candidatePaths doc = generate_element_path_of e :: es.map generate_element_path_of := by
    simp [candidatePaths, hdoc]
  refine ⟨?_, hsims0⟩
  cases hsims : candidateSims doc path vocab with
  | nil =>
    exfalso
    have : (candidateSims doc path vocab).length = (candidatePaths doc).length :=
      List.length_map _ _
    rw [hsims, hpaths] at this
    simp at this
  | cons s ss =>
    have hden : ∀ y ∈ s :: ss, 0 < y.den := by
      rw [← hsims]; exact candidateSims_den_pos doc path vocab
    obtain ⟨hmem, hlt, hget, hmax, hfirst⟩ := firstMax_spec ⟨0, 1⟩ ss s hden
    -- every similarity is ⟨0,1⟩ so the first index wins
    have hz : ∀ y ∈ s :: ss, y = (⟨0, 1⟩ : Sim) := by
      intro y hy; exact hsims0 y (hsims ▸ hy)
    have hidx : (firstMax s ss).2 = 0 := by
      by_contra hne
      have h0 : (0 : Nat) < (firstMax s ss).2 := Nat.pos_of_ne_zero hne
      have hstep := hfirst 0 h0
      rw [List.getD_cons_zero] at hstep
      have hm : (firstMax s ss).1 = (⟨0, 1⟩ : Sim) := hz _ hmem
      have hs0 : s = (⟨0, 1⟩ : Sim) := hz s (List.mem_cons_self s ss)
      rw [hm, hs0] at hstep
      simp [simLt] at hstep
    have hfind := find_eq_sims doc path vocab
    rw [hsims, npArgmax] at hfind
    rw [hfind, hidx, hpaths]
    simp

/-- Claim C8 (confirmed): `parse_rules_to_paths` returns the
concatenation of all the per-label lists, preserving within-list order
and label iteration order and discarding the labels; in particular
`{"a": ["P1","P2"], "b": ["P3"]}` yields `["P1","P2","P3"]`. -/
theorem c8_rules_flatten :
    (∀ rules_json : List (Str × List Str),
        parse_rules_to_paths rules_json = (rules_json.map Prod.snd).flatten)
    ∧ parse_rules_to_paths [(strL "a", [strL "P1", strL "P2"]), (strL "b", [strL "P3"])]
        = [strL "P1", strL "P2", strL "P3"] := by
  constructor
  · intro rules_json
    simpa using foldl_append_eq rules_json []
  · decide

/-! ## Claim C9: descriptors of attribute-less elements end in a space -/

/-- Claim C9 (confirmed): for an element with an empty attribute
mapping, `element_to_string` is the tag name followed by a single
trailing space — the separator space between tag and attributes is
always emitted — so an attribute-less segment inside a joined path shows
two spaces before the `" -> "` separator (as does the `"[document]"`
root segment itself). -/
theorem c9_trailing_space :
    (∀ t : Tag, t.attrs = [] → element_to_string t = t.name ++ [' '])
    ∧ (∀ c p : Tag, p.attrs = [] → p.name ≠ [] → c.name ≠ [] →
        generate_element_path_of ⟨c, [p]⟩
          = strL "[document]  -> " ++ p.name ++ strL "  -> " ++ element_to_string c) := by
  have h1 : ∀ t : Tag, t.attrs = [] → element_to_string t = t.name ++ [' '] := by
    intro t ht
    simp [element_to_string, ht, joinSep]
  refine ⟨h1, ?_⟩
  intro c p hp hpn hcn
  have hroot : element_to_string rootSentinel ++ sepArrow = strL "[document]  -> " := by decide
  have hsep : [' '] ++ sepArrow = strL "  -> " := by decide
  simp only [generate_element_path_of, generate_element_path, Elem.chain, walkUp,
    List.cons_append, List.nil_append]
  rw [if_neg hcn, if_neg hpn,
    if_neg (show ¬ rootSentinel.name = [] by decide)]
  simp only [List.reverse_cons, List.reverse_nil, List.nil_append, List.cons_append,
    joinSep, h1 p hp]
  rw [← hroot, ← hsep]
  simp [List.append_assoc]

/-- Witness for C9 at a concrete element. -/
theorem c9_trailing_space_witness :
    element_to_string ⟨strL "bb", []⟩ = strL "bb" ++ [' ']
    ∧ generate_element_path_of ⟨⟨strL "h1", []⟩, [⟨strL "body", []⟩]⟩
        = strL "[document]  -> " ++ strL "body" ++ strL "  -> "
          ++ element_to_string ⟨strL "h1", []⟩ :=
  ⟨c9_trailing_space.1 ⟨strL "bb", []⟩ rfl,
   c9_trailing_space.2 ⟨strL "h1", []⟩ ⟨strL "body", []⟩ rfl (by decide) (by decide)⟩

/-! ## Claim C1: behaviour on an empty document -/

/-- Claim C1 is false as stated: on a document with zero elements the
matcher does not signal the `EmptyDocument` condition — it reaches
numpy's `argmax` on the empty candidate list and fails with that
unrelated error. -/
theorem c1_empty_doc_counterexample :
    find_most_similar_element_path [] (strL "html") [] = .error .indexError
    ∧ (Except.error .indexError : Except MatchSignal Str) ≠ .error .emptyDocument := by
  refine ⟨rfl, fun h => ?_⟩
  injection h with h2
  exact absurd h2 (by decide)

/-- Claim C1 (corrected): for every document with zero elements,
`find_most_similar_element_path` has no empty-document guard and fails
with the index/argmax error on the empty candidate list — the
`EmptyDocument` condition is never signalled. -/
theorem c1_empty_doc_amended (doc : Doc) (path : Str) (vocab : List Str)
    (h : findAll doc = []) :
    find_most_similar_element_path doc path vocab = .error .indexError := by
  simp [find_most_similar_element_path, candidatePaths, h, npArgmax]

/-- Witness for the corrected C1 at the empty document. -/
theorem c1_empty_doc_amended_witness :
    find_most_similar_element_path [] (strL "html") [] = .error .indexError :=
  c1_empty_doc_amended [] (strL "html") [] rfl

/-- Witness for C7 on a two-element document and a target path sharing no
token with the fitted vocabulary. -/
def c7doc : Doc := [Node.node ⟨strL "aa", []⟩ [], Node.node ⟨strL "bb", []⟩ []]

/-- The vocabulary the pipeline fits: tokens of every element's
descriptor. -/
def c7vocab : List Str := cvFit ((findAll c7doc).map (fun e => element_to_string e.tag))

/-- Witness for C7: with no vocabulary overlap the matcher returns the
first element's path and every candidate similarity is 0. -/
theorem c7_zero_vector_witness :
    find_most_similar_element_path c7doc (strL "zz ") c7vocab
      = .ok (generate_element_path_of ⟨⟨strL "aa", []⟩, []⟩)
    ∧ ∀ s ∈ candidateSims c7doc (strL "zz ") c7vocab, s = ⟨0, 1⟩ :=
  c7_zero_vector_first_and_stable_argmax.1 c7doc (strL "zz ") c7vocab
    ⟨⟨strL "aa", []⟩, []⟩ [⟨⟨strL "bb", []⟩, []⟩] rfl (by decide)

/-! ## Claim C6: exact verbatim matches -/

/-- Cauchy-Schwarz induction step, over ℤ. -/
theorem csStep (x y d a b : ℤ) (ha : 0 ≤ a) (hb : 0 ≤ b) (h : d ^ 2 ≤ a * b) :
    (x * y + d) ^ 2 ≤ (x * x + a) * (y * y + b) := by
  rcases hb.lt_or_eq with hb' | hb'
  · nlinarith [sq_nonneg (x * b - y * d), mul_nonneg (sq_nonneg y) (sub_nonneg.2 h),
      mul_pos hb' hb']
  · have hd : d = 0 := by nlinarith [sq_nonneg d]
    subst hd
    nlinarith [mul_nonneg ha (sq_nonneg y)]

/-- Cauchy-Schwarz for count vectors: `⟨u,v⟩² ≤ ‖u‖²‖v‖²`. -/
theorem listCS : ∀ u v : List Nat, dotN u v ^ 2 ≤ dotN u u * dotN v v := by
  intro u
  induction u with
  | nil => intro v; simp [dotN]
  | cons x u ih =>
    intro v
    cases v with
    | nil => simp [dotN]
    | cons y v =>
      have h := ih v
      simp only [dotN, List.zipWith_cons_cons, List.sum_cons] at *
      generalize (List.zipWith (· * ·) u v).sum = d at *
      generalize (List.zipWith (· * ·) u u).sum = a at *
      generalize (List.zipWith (· * ·) v v).sum = b at *
      zify at h ⊢
      exact csStep x y d a b (by positivity) (by positivity) h

/-- Similarity fractions never exceed 1. -/
theorem simSq_num_le_den (u v : List Nat) : (simSq u v).num ≤ (simSq u v).den := by
  unfold simSq
  split
  · exact Nat.zero_le 1
  · have := listCS u v
    simpa [pow_two] using this

/-- Self-similarity of a non-zero vector is exactly 1. -/
theorem simSq_self {u : List Nat} (h : dotN u u ≠ 0) :
    simSq u u = ⟨dotN u u * dotN u u, dotN u u * dotN u u⟩ := by
  simp [simSq, h]

/-- The counterexample document for C6: an earlier element whose path
has the same token multiset as the target's verbatim path. -/
def c6doc : Doc :=
  [Node.node ⟨strL "bb", []⟩ [Node.node ⟨strL "aa", []⟩ []],
   Node.node ⟨strL "aa", []⟩ [Node.node ⟨strL "bb", []⟩ []]]

/-- The vocabulary the pipeline fits for `c6doc`. -/
def c6vocab : List Str := cvFit ((findAll c6doc).map (fun e => element_to_string e.tag))

/-- Claim C6 is false as stated: the document contains an element whose
generated path is exactly the target `"[document]  -> aa  -> bb "`, yet
the matcher returns the earlier path `"[document]  -> bb  -> aa "`,
whose bag-of-words vector ties at similarity 1 and wins by document
order. -/
theorem c6_exact_match_counterexample :
    (strL "[document]  -> aa  -> bb ") ∈ candidatePaths c6doc
    ∧ find_most_similar_element_path c6doc (strL "[document]  -> aa  -> bb ") c6vocab
        = .ok (strL "[document]  -> bb  -> aa ")
    ∧ strL "[document]  -> bb  -> aa " ≠ strL "[document]  -> aa  -> bb " :=
  ⟨by decide, rfl, by decide⟩

/-- Claim C6 (corrected): if the document contains an element whose
generated path equals the target verbatim and the target's vector is not
the zero vector, then the match attains cosine similarity exactly 1 —
but the returned path is the first candidate attaining it, which need
not be the verbatim match itself. -/
theorem c6_exact_match_amended (doc : Doc) (path : Str) (vocab : List Str) (e : Elem)
    (he : e ∈ findAll doc) (hpath : generate_element_path_of e = path)
    (hnz : dotN (transform vocab path) (transform vocab path) ≠ 0) :
    ∃ p, find_most_similar_element_path doc path vocab = .ok p
      ∧ 0 < (simSq (transform vocab path) (transform vocab p)).den
      ∧ (simSq (transform vocab path) (transform vocab p)).num
          = (simSq (transform vocab path) (transform vocab p)).den := by
  have hp : path ∈ candidatePaths doc :=
    List.mem_map.mpr ⟨e, he, hpath⟩
  have hs1 : simSq (transform vocab path) (transform vocab path) ∈
      candidateSims doc path vocab :=
    List.mem_map.mpr ⟨path, hp, rfl⟩
  cases hsims : candidateSims doc path vocab with
  | nil => rw [hsims] at hs1; simp at hs1
  | cons s ss =>
    have hden : ∀ y ∈ s :: ss, 0 < y.den := by
      rw [← hsims]; exact candidateSims_den_pos doc path vocab
    obtain ⟨hmem, hlt, hget, hmax, _⟩ := firstMax_spec ⟨0, 1⟩ ss s hden
    have hfind := find_eq_sims doc path vocab
    rw [hsims, npArgmax] at hfind
    refine ⟨(candidatePaths doc).getD (firstMax s ss).2 [], hfind, ?_⟩
    -- identify the similarity at the argmax index with the max value
    have hlen : (candidateSims doc path vocab).length = (candidatePaths doc).length :=
      List.length_map _ _
    have hilt : (firstMax s ss).2 < (candidatePaths doc).length := by
      rw [← hlen, hsims]; exact hlt
    have hsimsgetD : (candidateSims doc path vocab).getD (firstMax s ss).2 ⟨0, 1⟩
        = simSq (transform vocab path)
            (transform vocab ((candidatePaths doc).getD (firstMax s ss).2 [])) := by
      have h1 : (candidateSims doc path vocab).getD (firstMax s ss).2
          (simSq (transform vocab path) (transform vocab [])) =
          simSq (transform vocab path)
            (transform vocab ((candidatePaths doc).getD (firstMax s ss).2 [])) :=
        getD_map _ _ _ _ hilt
      rw [← h1]
      have hlt' : (firstMax s ss).2 < (candidateSims doc path vocab).length := by
        rw [hlen]; exact hilt
      rw [List.getD_eq_getElem _ _ hlt', List.getD_eq_getElem _ _ hlt']
    have hgetm : (candidateSims doc path vocab).getD (firstMax s ss).2 ⟨0, 1⟩
        = (firstMax s ss).1 := by
      rw [hsims]; exact hget
    -- the max is at least the verbatim match's similarity 1 ...
    have hs1' : simSq (transform vocab path) (transform vocab path) ∈ s :: ss := by
      rw [← hsims]; exact hs1
    have hge := hmax _ hs1'
    rw [simSq_self hnz] at hge
    simp only [simLt, decide_eq_false_iff_not, Nat.not_lt] at hge
    -- ... and at most 1 by Cauchy-Schwarz
    have hmem' : (firstMax s ss).1 ∈ candidateSims doc path vocab := by
      rw [hsims]; exact hmem
    obtain ⟨q, _, hq⟩ := List.mem_map.mp hmem'
    have hle : (firstMax s ss).1.num ≤ (firstMax s ss).1.den := by
      rw [← hq]; exact simSq_num_le_den _ _
    -- hence num = den at the max
    have hdd : 0 < dotN (transform vocab path) (transform vocab path) *
        dotN (transform vocab path) (transform vocab path) :=
      Nat.pos_of_ne_zero (Nat.mul_ne_zero hnz hnz)
    have hnumden : (firstMax s ss).1.num = (firstMax s ss).1.den := by
      have h2 : (firstMax s ss).1.den ≤ (firstMax s ss).1.num :=
        Nat.le_of_mul_le_mul_left (by
          calc dotN (transform vocab path) (transform vocab path) *
                dotN (transform vocab path) (transform vocab path) * (firstMax s ss).1.den
              ≤ (firstMax s ss).1.num *
                (dotN (transform vocab path) (transform vocab path) *
                 dotN (transform vocab path) (transform vocab path)) := hge
            _ = dotN (transform vocab path) (transform vocab path) *
                dotN (transform vocab path) (transform vocab path) * (firstMax s ss).1.num := by
                  ring) hdd
      exact Nat.le_antisymm hle h2
    rw [← hsimsgetD, hgetm]
    refine ⟨?_, hnumden⟩
    have := hden _ hmem
    exact this

/-- Witness for the corrected C6 on a one-element document whose single
path is the target itself. -/
def c6wdoc : Doc := [Node.node ⟨strL "aa", []⟩ []]

/-- The fitted vocabulary for the witness document. -/
def c6wvocab : List Str := cvFit ((findAll c6wdoc).map (fun e => element_to_string e.tag))

/-- Witness for the corrected C6. -/
theorem c6_exact_match_amended_witness :
    ∃ p, find_most_similar_element_path c6wdoc (strL "[document]  -> aa ") c6wvocab = .ok p
      ∧ 0 < (simSq (transform c6wvocab (strL "[document]  -> aa "))
          (transform c6wvocab p)).den
      ∧ (simSq (transform c6wvocab (strL "[document]  -> aa ")) (transform c6wvocab p)).num
          = (simSq (transform c6wvocab (strL "[document]  -> aa "))
              (transform c6wvocab p)).den :=
  c6_exact_match_amended c6wdoc (strL "[document]  -> aa ") c6wvocab ⟨⟨strL "aa", []⟩, []⟩
    (by decide) (by decide) (by decide)

/-! ## Claim C10: batch outputs come from the candidate set -/

/-- The argmax scan's index never exceeds the tail's length. -/
theorem firstMax_idx_le : ∀ (xs : List Sim) (x : Sim), (firstMax x xs).2 ≤ xs.length := by
  intro xs
  induction xs with
  | nil => intro x; simp [firstMax]
  | cons y ys ih =>
    intro x
    simp only [firstMax]
    by_cases hc : simLt x (firstMax y ys).1 = true
    · rw [if_pos hc]
      simpa using ih y
    · rw [if_neg hc]
      simp

/-- A successful match is one of the candidate paths. -/
theorem find_ok_mem {doc : Doc} {path m : Str} {vocab : List Str}
    (h : find_most_similar_element_path doc path vocab = .ok m) :
    m ∈ candidatePaths doc := by
  rw [find_eq_sims] at h
  cases hsims : candidateSims doc path vocab with
  | nil => rw [hsims] at h; simp [npArgmax] at h
  | cons s ss =>
    rw [hsims] at h
    simp only [npArgmax] at h
    injection h with h
    rw [← h]
    have hidx : (firstMax s ss).2 < (candidatePaths doc).length := by
      have h1 := firstMax_idx_le ss s
      have h2 : (candidateSims doc path vocab).length = (candidatePaths doc).length :=
        List.length_map _ _
      rw [hsims] at h2
      simp only [List.length_cons] at h2
      omega
    rw [List.getD_eq_getElem _ _ hidx]
    exact List.getElem_mem hidx

/-- When the batch runner succeeds, its outputs are candidate paths and
there is at most one per target. -/
theorem get_ok_mem_len :
    ∀ (doc : Doc) (paths : List Str) (vocab : List Str) (out : List Str),
      get_most_similar_paths doc paths vocab = .ok out →
      (∀ p ∈ out, p ∈ candidatePaths doc) ∧ out.length ≤ paths.length := by
  intro doc paths vocab
  induction paths with
  | nil =>
    intro out h
    simp only [get_most_similar_paths] at h
    injection h with h
    rw [← h]
    exact ⟨by simp, by simp⟩
  | cons p rest ih =>
    intro out h
    simp only [get_most_similar_paths] at h
    cases hf : find_most_similar_element_path doc p vocab with
    | error e => rw [hf] at h; exact absurd h (by simp)
    | ok m =>
      rw [hf] at h
      cases hr : get_most_similar_paths doc rest vocab with
      | error e => rw [hr] at h; exact absurd h (by simp)
      | ok ms =>
        rw [hr] at h
        injection h with h
        obtain ⟨ihmem, ihlen⟩ := ih ms hr
        by_cases hm : m.isEmpty
        · rw [if_pos hm] at h
          rw [← h]
          exact ⟨ihmem, by simpa using Nat.le_succ_of_le ihlen⟩
        · rw [if_neg hm] at h
          rw [← h]
          constructor
          · intro q hq
            rcases List.mem_cons.mp hq with hq | hq
            · rw [hq]; exact find_ok_mem hf
            · exact ihmem q hq
          · simpa using Nat.succ_le_succ ihlen

/-- The result the batch loop keeps for one target path: the matcher's
output when truthy (non-empty), nothing otherwise. -/
def batchResult (doc : Doc) (vocab : List Str) (p : Str) : Option Str :=
  match find_most_similar_element_path doc p vocab with
  | .error _ => none
  | .ok m => if m.isEmpty then none else some m

/-- A successful batch run is exactly the per-target results in
target-path input order. -/
theorem get_ok_order :
    ∀ (doc : Doc) (paths : List Str) (vocab : List Str) (out : List Str),
      get_most_similar_paths doc paths vocab = .ok out →
      out = paths.filterMap (batchResult doc vocab) := by
  intro doc paths vocab
  induction paths with
  | nil =>
    intro out h
    simp only [get_most_similar_paths] at h
    injection h with h
    rw [← h]
    simp
  | cons p rest ih =>
    intro out h
    simp only [get_most_similar_paths] at h
    cases hf : find_most_similar_element_path doc p vocab with
    | error e => rw [hf] at h; exact absurd h (by simp)
    | ok m =>
      rw [hf] at h
      cases hr : get_most_similar_paths doc rest vocab with
      | error e => rw [hr] at h; exact absurd h (by simp)
      | ok ms =>
        rw [hr] at h
        injection h with h
        have hbp : batchResult doc vocab p = if m.isEmpty then none else some m := by
          unfold batchResult
          rw [hf]
        rw [← h, ih ms hr, List.filterMap_cons, hbp]
        by_cases hm : m.isEmpty
        · rw [if_pos hm, if_pos hm]
        · rw [if_neg hm, if_neg hm]

/-- Claim C10 (confirmed): when the batch runner succeeds, every path it
returns is the generated path of some element of the document (outputs
are drawn from the candidate set, never fabricated), the output list is
at most as long as the target list, and it consists of the per-target
results in target-path input order. -/
theorem c10_output_from_candidates :
    ∀ (doc : Doc) (paths : List Str) (vocab : List Str) (out : List Str),
      get_most_similar_paths doc paths vocab = .ok out →
      (∀ p ∈ out, p ∈ candidatePaths doc) ∧ out.length ≤ paths.length
      ∧ out = paths.filterMap (batchResult doc vocab) := by
  intro doc paths vocab out h
  obtain ⟨hmem, hlen⟩ := get_ok_mem_len doc paths vocab out h
  exact ⟨hmem, hlen, get_ok_order doc paths vocab out h⟩

/-- Witness document for C10. -/
def c10doc : Doc := [Node.node ⟨strL "aa", []⟩ []]

/-- Witness vocabulary for C10. -/
def c10vocab : List Str := cvFit ((findAll c10doc).map (fun e => element_to_string e.tag))

/-- Witness for C10 on a one-element document and a single target. -/
theorem c10_output_from_candidates_witness :
    (∀ p ∈ [strL "[document]  -> aa "], p ∈ candidatePaths c10doc)
    ∧ ([strL "[document]  -> aa "]).length ≤ ([strL "aa "]).length
    ∧ [strL "[document]  -> aa "] = ([strL "aa "]).filterMap (batchResult c10doc c10vocab) :=
  c10_output_from_candidates c10doc [strL "aa "] c10vocab [strL "[document]  -> aa "] rfl

/-! ## Splitting a joined path recovers its segments

The round trip `pySplit (joinSep sepArrow parts) = parts` holds whenever
no part contains the separator and no part ends in `" ->"` (the only
self-overlap of `" -> "` is at shift 3, so a part ending in `" ->"` is
the only way an occurrence of the separator can straddle a part
boundary). -/

theorem sepArrow_isPrefixOf_nil : sepArrow.isPrefixOf ([] : Str) = false := by decide

/-- The scanner's result does not depend on the fuel, as long as the
fuel exceeds the number of remaining characters. -/
theorem pySplitAuxF_fuel_irrel :
    ∀ (f1 : Nat) (f2 : Nat) (acc s : Str), s.length < f1 → s.length < f2 →
      pySplitAuxF f1 acc s = pySplitAuxF f2 acc s := by
  intro f1
  induction f1 with
  | zero => intro f2 acc s h1; omega
  | succ g1 ih =>
    intro f2 acc s h1 h2
    cases f2 with
    | zero => omega
    | succ g2 =>
      cases s with
      | nil => rfl
      | cons c rest =>
        simp only [List.length_cons] at h1 h2
        simp only [pySplitAuxF]
        by_cases hp : sepArrow.isPrefixOf (c :: rest) = true
        · rw [if_pos hp, if_pos hp]
          have hd : ((c :: rest).drop 4).length ≤ rest.length := by
            simp only [List.length_drop, List.length_cons]
            omega
          rw [ih g2 [] ((c :: rest).drop 4) (by omega) (by omega)]
        · rw [if_neg hp, if_neg hp]
          exact ih g2 (c :: acc) rest (by omega) (by omega)

/-- Scanning a string that nowhere contains the separator yields a
single piece. -/
theorem pySplitAuxF_no_sep :
    ∀ (s : Str), containsSub sepArrow s = false →
      ∀ (f : Nat) (acc : Str), s.length < f → pySplitAuxF f acc s = [acc.reverse ++ s] := by
  intro s
  induction s with
  | nil =>
    intro _ f acc hf
    cases f with
    | zero => omega
    | succ g => simp [pySplitAuxF]
  | cons c rest ih =>
    intro h f acc hf
    simp only [containsSub, Bool.or_eq_false_iff] at h
    cases f with
    | zero => omega
    | succ g =>
      simp only [pySplitAuxF]
      rw [if_neg (by rw [h.1]; simp)]
      rw [ih h.2 g (c :: acc) (by simp only [List.length_cons] at hf; omega)]
      simp

/-- A part that neither contains the separator nor ends in `" ->"`
cannot start an occurrence of the separator when the separator follows
it. -/
theorem isPrefixOf_sep_false (p t : Str) (h1 : containsSub sepArrow p = false)
    (h2 : (strL " ->").isSuffixOf p = false) (hne : p ≠ []) :
    sepArrow.isPrefixOf (p ++ sepArrow ++ t) = false := by
  cases p with
  | nil => exact absurd rfl hne
  | cons c p' =>
    cases p' with
    | nil =>
      show sepArrow.isPrefixOf (c :: (sepArrow ++ t)) = false
      simp [sepArrow, strL, List.isPrefixOf]
    | cons c1 p'' =>
      cases p'' with
      | nil =>
        show sepArrow.isPrefixOf (c :: c1 :: (sepArrow ++ t)) = false
        simp [sepArrow, strL, List.isPrefixOf]
      | cons c2 p3 =>
        cases p3 with
        | nil =>
          by_contra hpre
          rw [Bool.not_eq_false] at hpre
          have : c = ' ' ∧ c1 = '-' ∧ c2 = '>' := by
            have := hpre
            simp [sepArrow, strL, List.isPrefixOf] at this
            tauto
          obtain ⟨rfl, rfl, rfl⟩ := this
          exact absurd h2 (by decide)
        | cons c3 p4 =>
          by_contra hpre
          rw [Bool.not_eq_false] at hpre
          have hch : c = ' ' ∧ c1 = '-' ∧ c2 = '>' ∧ c3 = ' ' := by
            have := hpre
            simp [sepArrow, strL, List.isPrefixOf] at this
            tauto
          obtain ⟨rfl, rfl, rfl, rfl⟩ := hch
          have : containsSub sepArrow (' ' :: '-' :: '>' :: ' ' :: p4) = true := by
            simp [containsSub, sepArrow, strL, List.isPrefixOf]
          rw [this] at h1
          exact absurd h1 (by simp)

/-- `isSuffixOf` is monotone under consing the larger list. -/
theorem isSuffixOf_cons_of {x p : Str} {c : Char} (h : x.isSuffixOf p = true) :
    x.isSuffixOf (c :: p) = true :=
  List.isSuffixOf_iff_suffix.mpr ((List.isSuffixOf_iff_suffix.mp h).trans (List.suffix_cons c p))

/-- Scanning `p ++ " -> " ++ t` for a clean part `p` emits `p` and
continues with `t`. -/
theorem pySplitAuxF_cut :
    ∀ (p : Str), containsSub sepArrow p = false → (strL " ->").isSuffixOf p = false →
      ∀ (t : Str) (f : Nat) (acc : Str), (p ++ sepArrow ++ t).length < f →
        pySplitAuxF f acc (p ++ sepArrow ++ t)
          = (acc.reverse ++ p) :: pySplitAuxF (t.length + 1) [] t := by
  intro p
  induction p with
  | nil =>
    intro _ _ t f acc hf
    cases f with
    | zero => omega
    | succ g =>
      have hlen : t.length < g := by
        have h4 : (([] : Str) ++ sepArrow ++ t).length = t.length + 4 := by
          simp [sepArrow, strL]
        omega
      show pySplitAuxF (g + 1) acc (' ' :: '-' :: '>' :: ' ' :: t) = _
      simp only [pySplitAuxF]
      rw [if_pos (show sepArrow.isPrefixOf (' ' :: '-' :: '>' :: ' ' :: t) = true from
        List.isPrefixOf_iff_prefix.mpr (List.prefix_append sepArrow t))]
      show acc.reverse :: pySplitAuxF g [] t = _
      rw [pySplitAuxF_fuel_irrel g (t.length + 1) [] t hlen (Nat.lt_succ_self _)]
      simp
  | cons c p' ih =>
    intro h1 h2 t f acc hf
    have h1' : containsSub sepArrow (c :: p') = false := h1
    simp only [containsSub, Bool.or_eq_false_iff] at h1
    cases f with
    | zero => omega
    | succ g =>
      have hpre : sepArrow.isPrefixOf ((c :: p') ++ sepArrow ++ t) = false :=
        isPrefixOf_sep_false (c :: p') t h1' h2 (by simp)
      have h2' : (strL " ->").isSuffixOf p' = false := by
        cases hs : (strL " ->").isSuffixOf p' with
        | false => rfl
        | true => rw [isSuffixOf_cons_of hs] at h2; exact h2
      show pySplitAuxF (g + 1) acc (c :: (p' ++ sepArrow ++ t)) = _
      simp only [pySplitAuxF]
      rw [if_neg (by
        rw [show sepArrow.isPrefixOf (c :: (p' ++ sepArrow ++ t)) = false from hpre]
        simp)]
      have hflen : (p' ++ sepArrow ++ t).length < g := by
        have hl : ((c :: p') ++ sepArrow ++ t).length = (p' ++ sepArrow ++ t).length + 1 := by
          simp
        omega
      rw [ih h1.2 h2' t g (c :: acc) hflen]
      simp

/-- Splitting a `" -> "`-joined list of clean parts recovers exactly the
parts. -/
theorem pySplit_joinSep :
    ∀ (parts : List Str), parts ≠ [] →
      (∀ p ∈ parts, containsSub sepArrow p = false ∧ (strL " ->").isSuffixOf p = false) →
      pySplit (joinSep sepArrow parts) = parts := by
  intro parts
  induction parts with
  | nil => intro h; exact absurd rfl h
  | cons p rest ih =>
    intro _ h
    cases rest with
    | nil =>
      have hp := h p (List.mem_singleton_self p)
      simp only [joinSep, pySplit]
      rw [pySplitAuxF_no_sep p hp.1 (p.length + 1) [] (Nat.lt_succ_self _)]
      simp
    | cons q rest' =>
      have hp := h p (List.mem_cons_self p _)
      simp only [joinSep, pySplit]
      rw [show p ++ sepArrow ++ joinSep sepArrow (q :: rest')
            = p ++ sepArrow ++ joinSep sepArrow (q :: rest') from rfl]
      rw [pySplitAuxF_cut p hp.1 hp.2 (joinSep sepArrow (q :: rest')) _ []
        (Nat.lt_succ_self _)]
      have := ih (by simp) (fun r hr => h r (List.mem_cons_of_mem p hr))
      simp only [pySplit] at this
      rw [this]
      simp

/-! ## Claim C2: path length and the root sentinel -/

/-- The upward walk over a chain of named elements followed by a
falsy-named element collects exactly the named elements' descriptors:
the falsy-named element (and anything beyond it) is excluded, its
presence only terminates the loop.  (BeautifulSoup's real root is not
such an element — its name `"[document]"` is truthy.) -/
theorem walkUp_append_sentinel :
    ∀ (l : List Tag), (∀ t ∈ l, t.name ≠ []) →
      ∀ (a : List (Str × AttrValue)) (junk : List Tag),
        walkUp (l ++ (⟨[], a⟩ : Tag) :: junk) = l.map element_to_string := by
  intro l
  induction l with
  | nil => intro _ a junk; simp [walkUp]
  | cons t rest ih =>
    intro h a junk
    have ht : t.name ≠ [] := h t (List.mem_cons_self t rest)
    simp only [List.cons_append, walkUp, if_neg ht, List.map_cons, List.append_eq]
    rw [ih (fun u hu => h u (List.mem_cons_of_mem t hu)) a junk]

/-- The upward walk over a fully named chain collects every
descriptor. -/
theorem walkUp_named :
    ∀ (l : List Tag), (∀ t ∈ l, t.name ≠ []) → walkUp l = l.map element_to_string := by
  intro l
  induction l with
  | nil => intro _; rfl
  | cons t rest ih =>
    intro h
    have ht : t.name ≠ [] := h t (List.mem_cons_self t rest)
    simp only [walkUp, if_neg ht, List.map_cons]
    rw [ih (fun u hu => h u (List.mem_cons_of_mem t hu))]

/-- Claim C2 is false as stated: a top-level element (ancestor-depth 0)
generates the path `"[document]  -> aa "`, which has 2 segments, not
0 + 1 — the `"[document]"` root sentinel is truthy-named, so the walk
includes it as the first segment rather than merely stopping there. -/
theorem c2_path_segment_count_counterexample :
    generate_element_path_of (⟨⟨strL "aa", []⟩, []⟩ : Elem) = strL "[document]  -> aa "
    ∧ (pySplit (generate_element_path_of (⟨⟨strL "aa", []⟩, []⟩ : Elem))).length = 2
    ∧ (2 : Nat) ≠ 0 + 1 :=
  ⟨by decide, by decide, by decide⟩

/-- Claim C2 (corrected).  First part: for an element at ancestor-depth
`d` (root excluded from the count), its generated path splits on
`" -> "` into exactly `d + 2` segments, the `"[document]"` root
descriptor included as the first — provided no element descriptor
contains the separator (or ends in `" ->"`, the separator's only
self-overlap).  Second part: only an element with a falsy name would be
excluded and end the walk; the real root's name `"[document]"` is
truthy, so the walk includes it and stops at its missing parent. -/
theorem c2_path_segment_count_amended :
    (∀ e : Elem,
      (∀ t ∈ e.tag :: e.anc, t.name ≠ []) →
      (∀ t ∈ e.tag :: e.anc, containsSub sepArrow (element_to_string t) = false) →
      (∀ t ∈ e.tag :: e.anc, (strL " ->").isSuffixOf (element_to_string t) = false) →
      (pySplit (generate_element_path_of e)).length = e.anc.length + 2)
    ∧ (∀ (c junk : List Tag) (a : List (Str × AttrValue)),
        (∀ t ∈ c, t.name ≠ []) →
        generate_element_path (c ++ (⟨[], a⟩ : Tag) :: junk) = generate_element_path c) := by
  constructor
  · intro e hnames hsep hsuf
    have hnames' : ∀ t ∈ e.chain, t.name ≠ [] := by
      intro t ht
      have ht' : t = e.tag ∨ t ∈ e.anc ∨ t = rootSentinel := by
        simpa [Elem.chain] using ht
      rcases ht' with rfl | ht' | rfl
      · exact hnames _ (List.mem_cons_self _ _)
      · exact hnames t (List.mem_cons_of_mem _ ht')
      · decide
    have hwalk : walkUp e.chain = e.chain.map element_to_string :=
      walkUp_named e.chain hnames'
    have hparts : ∀ p ∈ (e.chain.map element_to_string).reverse,
        containsSub sepArrow p = false ∧ (strL " ->").isSuffixOf p = false := by
      intro p hp
      rw [List.mem_reverse] at hp
      obtain ⟨t, ht, rfl⟩ := List.mem_map.mp hp
      have ht' : t = e.tag ∨ t ∈ e.anc ∨ t = rootSentinel := by
        simpa [Elem.chain] using ht
      rcases ht' with rfl | ht' | rfl
      · exact ⟨hsep _ (List.mem_cons_self _ _), hsuf _ (List.mem_cons_self _ _)⟩
      · exact ⟨hsep t (List.mem_cons_of_mem _ ht'), hsuf t (List.mem_cons_of_mem _ ht')⟩
      · exact ⟨by decide, by decide⟩
    have hne : (e.chain.map element_to_string).reverse ≠ [] := by
      simp [Elem.chain]
    unfold generate_element_path_of generate_element_path
    rw [hwalk, pySplit_joinSep _ hne hparts]
    simp [Elem.chain]
  · intro c junk a h
    unfold generate_element_path
    rw [walkUp_append_sentinel c h a junk, walkUp_named c h]

/-- Witness for the corrected C2: a depth-2 element yields a 4-segment
path, and the walk drops everything from a falsy-named element on. -/
theorem c2_path_segment_count_amended_witness :
    (pySplit (generate_element_path_of
        ⟨⟨strL "h1", []⟩, [⟨strL "body", []⟩, ⟨strL "html", []⟩]⟩)).length = 2 + 2
    ∧ generate_element_path ([⟨strL "aa", []⟩] ++ (⟨[], []⟩ : Tag) :: [⟨strL "zz", []⟩])
        = generate_element_path [⟨strL "aa", []⟩] :=
  ⟨c2_path_segment_count_amended.1 ⟨⟨strL "h1", []⟩, [⟨strL "body", []⟩, ⟨strL "html", []⟩]⟩
      (by decide) (by decide) (by decide),
   c2_path_segment_count_amended.2 [⟨strL "aa", []⟩] [⟨strL "zz", []⟩] [] (by decide)⟩

/-! ## Claim C3: unresolved segments in the reverse locator -/

/-- The counterexample document for C3: `x` contains `z` but no `y`. -/
def c3doc : Doc := [Node.node ⟨strL "x", []⟩ [Node.node ⟨strL "z", []⟩ []]]

/-- Claim C3 is false as stated: on the path `"x -> y -> z"` the segment
`"y"` resolves to no descendant, yet the walk does not stop there — the
later segment `"z"` is consulted and the locator returns the `z`
element, not the deepest element (`x`) reached before the unresolved
segment. -/
theorem c3_stop_at_failure_counterexample :
    bsFind (.el (Node.node ⟨strL "x", []⟩ [Node.node ⟨strL "z", []⟩ []]))
        (segTag (strL "y")) (parse_attributes (segAttrStr (strL "y"))) = none
    ∧ curName (find_element_by_path c3doc (strL "x -> y -> z")) = some (strL "z")
    ∧ some (strL "z") ≠ some (strL "x") :=
  ⟨rfl, by decide, by decide⟩

/-- A segment that resolves no descendant leaves the walk's current
element unchanged. -/
theorem feb_step_id {cur : Cur} {s : Str}
    (h : bsFind cur (segTag s) (parse_attributes (segAttrStr s)) = none) :
    feb_step cur s = cur := by
  unfold feb_step
  by_cases hd : containsSub (strL "[document]") s = true
  · rw [if_pos hd]
  · rw [if_neg hd, h]

/-- Claim C3 (corrected): when a segment of the path resolves to no
descendant, the locator does not stop — it skips that segment, keeping
the current element, and continues with the remaining segments.  The
result is the same as for the path with the unresolved segment deleted
(so the element finally returned is the one reached after processing all
segments, not the deepest element before the first unresolved one). -/
theorem c3_skip_and_continue (doc : Doc) (pre post : List Str) (s : Str)
    (hall : ∀ t ∈ pre ++ s :: post,
      containsSub sepArrow t = false ∧ (strL " ->").isSuffixOf t = false)
    (hne : pre ++ post ≠ [])
    (hfail : bsFind (List.foldl feb_step (Cur.root doc) pre)
        (segTag s) (parse_attributes (segAttrStr s)) = none) :
    find_element_by_path doc (joinSep sepArrow (pre ++ s :: post))
      = find_element_by_path doc (joinSep sepArrow (pre ++ post)) := by
  unfold find_element_by_path
  rw [pySplit_joinSep (pre ++ s :: post) (by simp) hall,
    pySplit_joinSep (pre ++ post) hne
      (fun t ht => hall t (by
        rcases List.mem_append.mp ht with ht | ht
        · exact List.mem_append.mpr (Or.inl ht)
        · exact List.mem_append.mpr (Or.inr (List.mem_cons_of_mem s ht))))]
  rw [List.foldl_append, List.foldl_append, List.foldl_cons, feb_step_id hfail]

/-- Witness for the corrected C3 on the counterexample document: the
path `"x -> y -> z"` locates the same element as `"x -> z"`. -/
theorem c3_skip_and_continue_witness :
    find_element_by_path c3doc (joinSep sepArrow ([strL "x"] ++ strL "y" :: [strL "z"]))
      = find_element_by_path c3doc (joinSep sepArrow ([strL "x"] ++ [strL "z"])) :=
  c3_skip_and_continue c3doc [strL "x"] [strL "z"] (strL "y")
    (by decide) (by simp) rfl

/-! ## Claim C5: bracketed list values -/

/-- Key presence in the parsed attribute dict. -/
def hasKey (m : List (Str × AttrValue)) (k : Str) : Bool :=
  m.any (fun p => p.1 == k)

/-- `takeWhile`/`dropWhile` split at the first character failing the
predicate. -/
theorem tw_dw_append {p : Char → Bool} :
    ∀ (k : Str) (x : Char) (r : Str), (∀ c ∈ k, p c = true) → p x = false →
      (k ++ x :: r).takeWhile p = k ∧ (k ++ x :: r).dropWhile p = x :: r := by
  intro k
  induction k with
  | nil =>
    intro x r _ hx
    simp [List.takeWhile_cons, List.dropWhile_cons, hx]
  | cons c k' ih =>
    intro x r hk hx
    have hc : p c = true := hk c (List.mem_cons_self c k')
    have hrec := ih x r (fun d hd => hk d (List.mem_cons_of_mem c hd)) hx
    simp only [List.cons_append, List.takeWhile_cons, List.dropWhile_cons, hc, if_pos]
    exact ⟨by rw [hrec.1], by rw [hrec.2]⟩

/-- The lazy bracket content runs to the first `]`. -/
theorem takeUntilRB_append :
    ∀ (c : Str) (r : Str), ']' ∉ c → takeUntilRB (c ++ ']' :: r) = some (c, r) := by
  intro c
  induction c with
  | nil => intro r _; simp [takeUntilRB]
  | cons x c' ih =>
    intro r h
    have hx : ¬ x = ']' := fun hx => h (hx ▸ List.mem_cons_self x c')
    simp only [List.cons_append, takeUntilRB, List.append_eq]
    rw [if_neg (by simpa using hx), ih r (fun hm => h (List.mem_cons_of_mem x hm))]

/-- `scanGroupsF` consumes nothing unless the head is `-`. -/
theorem scanGroupsF_not_dash : ∀ (f : Nat) (c : Char) (r : Str), c ≠ '-' →
    scanGroupsF f (c :: r) = ([], c :: r) := by
  intro f c r hc
  cases f with
  | zero => rfl
  | succ g => simp [scanGroupsF, hc]

/-- `scanName` on a word-character run followed by a non-name character
returns exactly the run. -/
theorem scanName_append (k : Str) (c0 : Char) (r : Str)
    (hk : ∀ ch ∈ k, isWordChar ch = true) (hkne : k ≠ [])
    (hc0 : isWordChar c0 = false) (hc0' : c0 ≠ '-') :
    scanName (k ++ c0 :: r) = (k, c0 :: r) := by
  obtain ⟨htw, hdw⟩ := tw_dw_append k c0 r hk hc0
  unfold scanName
  rw [htw, hdw]
  cases k with
  | nil => exact absurd rfl hkne
  | cons kc k' =>
    simp only
    rw [scanGroupsF_not_dash _ c0 r hc0']
    simp

/-- The empty string yields no tokens, whatever the fuel. -/
theorem saiLoopF_nil : ∀ f : Nat, saiLoopF f [] = [] := by
  intro f; cases f <;> rfl

/-- The empty string yields no bracket-branch pairs, whatever the
fuel. -/
theorem bfaLoopF_nil : ∀ f : Nat, bfaLoopF f [] = [] := by
  intro f; cases f <;> rfl

/-- A string that is entirely one token tokenizes to exactly that
token. -/
theorem split_attributes_single {s : Str} (h : scanTokenAt s = some (s, [])) :
    split_attributes_improved s = [s] := by
  cases s with
  | nil => simp [scanTokenAt, scanName, scanGroupsF] at h
  | cons c rest =>
    show saiLoopF (rest.length + 1 + 1) (c :: rest) = [c :: rest]
    simp only [saiLoopF, h]

/-- Evaluation of the token scanner on a single bracketed token
`k=[c]`. -/
theorem scanTokenAt_bracket (k c : Str) (hk : ∀ ch ∈ k, isWordChar ch = true)
    (hkne : k ≠ []) (hc : ']' ∉ c) :
    scanTokenAt (k ++ '=' :: '[' :: (c ++ [']']))
      = some (k ++ '=' :: '[' :: (c ++ [']']), []) := by
  unfold scanTokenAt
  rw [scanName_append k '=' ('[' :: (c ++ [']'])) hk hkne (by decide) (by decide)]
  cases k with
  | nil => exact absurd rfl hkne
  | cons kc k' =>
    simp only [if_pos rfl]
    have htw : ('[' :: (c ++ [']'])).takeWhile isValChar = [] := by
      simp [List.takeWhile_cons, isValChar]
    have hdw : ('[' :: (c ++ [']'])).dropWhile isValChar = '[' :: (c ++ [']']) := by
      simp [List.dropWhile_cons, isValChar]
    rw [htw, hdw]
    show some ((kc :: k') ++ '=' :: ([] ++ (scanBracket ('[' :: (c ++ [']']))).1),
        (scanBracket ('[' :: (c ++ [']']))).2) = _
    have hbr : scanBracket ('[' :: (c ++ [']'])) = ('[' :: (c ++ [']']), []) := by
      simp only [scanBracket]
      rw [show c ++ [']'] = c ++ ']' :: [] from rfl, takeUntilRB_append c [] hc]
      simp
    rw [hbr]
    simp

/-- Evaluation of the bracket-branch regex on a single bracketed token
`k=[c]`: the key is the maximal `\w+` run, so a hyphenated key is
truncated. -/
theorem bracketFindAll_single (k c : Str) (hk : ∀ ch ∈ k, isWordChar ch = true)
    (hkne : k ≠ []) (hc : ']' ∉ c) :
    bracketFindAll (k ++ '=' :: '[' :: (c ++ [']'])) = [.brList k c] := by
  have hbf : bfAt (k ++ '=' :: '[' :: (c ++ [']'])) = some (.brList k c, []) := by
    unfold bfAt
    obtain ⟨htw, hdw⟩ := tw_dw_append k '=' ('[' :: (c ++ [']'])) hk (by decide)
    rw [htw, hdw]
    cases k with
    | nil => exact absurd rfl hkne
    | cons kc k' =>
      simp only [if_pos rfl]
      rw [show c ++ [']'] = c ++ ']' :: [] from rfl, takeUntilRB_append c [] hc]
      simp
  cases k with
  | nil => exact absurd rfl hkne
  | cons kc k' =>
    show bfaLoopF (((kc :: k') ++ '=' :: '[' :: (c ++ [']'])).length + 1) _ = _
    simp only [List.cons_append, List.length_cons, bfaLoopF, List.append_eq]
    rw [show bfAt (kc :: (k' ++ '=' :: '[' :: (c ++ [']'])))
          = some (.brList (kc :: k') c, []) from hbf]
    show BrPair.brList (kc :: k') c
        :: bfaLoopF ((k' ++ '=' :: '[' :: (c ++ [']'])).length + 1) [] = _
    rw [bfaLoopF_nil]

/-- Claim C5 is false as stated: `"data-v=[a]"` is a single token of
shape `key=[v1]` with key `data-v`, yet `parse_attributes` produces no
entry under `data-v` — the bracket-branch regex truncates the key to its
last `\w+` run, yielding `{v: ["a"]}`. -/
theorem c5_bracket_list_counterexample :
    split_attributes_improved (strL "data-v=[a]") = [strL "data-v=[a]"]
    ∧ parse_attributes (strL "data-v=[a]") = [(strL "v", .list [strL "a"])]
    ∧ hasKey (parse_attributes (strL "data-v=[a]")) (strL "data-v") = false := by
  refine ⟨by decide, by decide, by decide⟩

/-- Claim C5 (corrected): for a bracketed token `key=[v1,v2,...]` whose
key consists of word characters only (no hyphens), `parse_attributes`
maps the key to the list of values, each trimmed of surrounding quote,
bracket and space characters; in particular `"class=[btn, active]"`
parses to `{class: ["btn", "active"]}`.  (Hyphenated keys of bracketed
tokens are mis-parsed, as the counterexample shows.) -/
theorem c5_bracket_list_amended (k c : Str) (hk : ∀ ch ∈ k, isWordChar ch = true)
    (hkne : k ≠ []) (hc : ']' ∉ c) :
    parse_attributes (k ++ '=' :: '[' :: (c ++ [']']))
      = [(k, .list ((splitChar ',' c).map (stripChars listTrimSet)))] := by
  unfold parse_attributes
  rw [split_attributes_single (scanTokenAt_bracket k c hk hkne hc)]
  have hcont : (k ++ '=' :: '[' :: (c ++ [']'])).contains '[' = true := by
    have : '[' ∈ k ++ '=' :: '[' :: (c ++ [']']) := by simp
    simpa using this
  simp only [List.foldl_cons, List.foldl_nil, parseStep, hcont, if_pos]
  rw [bracketFindAll_single k c hk hkne hc]
  rfl

/-- Witness for the corrected C5: the spec's own P4 instance
`class=[btn, active]`. -/
theorem c5_bracket_list_amended_witness :
    parse_attributes (strL "class" ++ '=' :: '[' :: (strL "btn, active" ++ [']']))
      = [(strL "class",
          .list ((splitChar ',' (strL "btn, active")).map (stripChars listTrimSet)))] :=
  c5_bracket_list_amended (strL "class") (strL "btn, active") (by decide) (by decide)
    (by decide)

/-! ## Claim C4: hyphenated scalar attribute keys -/

/-- Word characters are not whitespace. -/
theorem wordChar_not_ws {c : Char} (h : isWordChar c = true) : c.isWhitespace = false := by
  cases hw : c.isWhitespace with
  | false => rfl
  | true =>
    exfalso
    have hw' : ((c = ' ' ∨ c = '\t') ∨ c = '\x0d') ∨ c = '\n' := by
      simpa [Char.isWhitespace] using hw
    rcases hw' with ((rfl | rfl) | rfl) | rfl <;> exact absurd h (by decide)

/-- Word characters are not `=`. -/
theorem wordChar_ne_eq {c : Char} (h : isWordChar c = true) : ¬ c = '=' := by
  intro he
  rw [he] at h
  exact absurd h (by decide)

/-- Characters of the greedy hyphen groups are word characters or `-`. -/
theorem scanGroupsF_chars :
    ∀ (f : Nat) (s : Str) (c : Char), c ∈ (scanGroupsF f s).1 →
      isWordChar c = true ∨ c = '-' := by
  intro f
  induction f with
  | zero => intro s c hc; simp [scanGroupsF] at hc
  | succ g ih =>
    intro s c hc
    cases s with
    | nil => simp [scanGroupsF] at hc
    | cons x rest =>
      by_cases hx : x = '-'
      · subst hx
        cases htw : rest.takeWhile isWordChar with
        | nil =>
          have hz : scanGroupsF (g + 1) ('-' :: rest) = ([], '-' :: rest) := by
            simp [scanGroupsF, htw]
          rw [hz] at hc
          simp at hc
        | cons w ws =>
          have hz : (scanGroupsF (g + 1) ('-' :: rest)).1
              = '-' :: ((w :: ws) ++ (scanGroupsF g (rest.dropWhile isWordChar)).1) := by
            simp [scanGroupsF, htw]
          rw [hz] at hc
          rcases List.mem_cons.mp hc with rfl | hc
          · exact Or.inr rfl
          rcases List.mem_append.mp hc with hc | hc
          · exact Or.inl (List.mem_takeWhile_imp (l := rest) (by rw [htw]; exact hc))
          · exact ih _ c hc
      · have hz : scanGroupsF (g + 1) (x :: rest) = ([], x :: rest) := by
          simp [scanGroupsF, hx]
        rw [hz] at hc
        simp at hc

/-- Characters of a scanned name are word characters or `-`. -/
theorem scanName_chars {s : Str} {c : Char} (hc : c ∈ (scanName s).1) :
    isWordChar c = true ∨ c = '-' := by
  unfold scanName at hc
  cases htw : s.takeWhile isWordChar with
  | nil => rw [htw] at hc; simp at hc
  | cons w ws =>
    rw [htw] at hc
    simp only [List.mem_append] at hc
    rcases hc with hc | hc
    · exact Or.inl (List.mem_takeWhile_imp (l := s) (by rw [htw]; exact hc))
    · exact scanGroupsF_chars _ _ c hc

/-- The optional bracket part is empty or starts with `[`. -/
theorem scanBracket_shape (s : Str) :
    (scanBracket s).1 = [] ∨ ∃ u, (scanBracket s).1 = '[' :: u := by
  cases s with
  | nil => exact Or.inl rfl
  | cons c rest =>
    by_cases hcb : c = '['
    · subst hcb
      cases hr : takeUntilRB rest with
      | none =>
        have hz : scanBracket ('[' :: rest) = ([], '[' :: rest) := by
          simp [scanBracket, hr]
        rw [hz]
        exact Or.inl rfl
      | some p =>
        have hz : scanBracket ('[' :: rest) = ('[' :: (p.1 ++ [']']), p.2) := by
          simp [scanBracket, hr]
        rw [hz]
        exact Or.inr ⟨p.1 ++ [']'], rfl⟩
    · have hz : scanBracket (c :: rest) = ([], c :: rest) := by
        simp [scanBracket, hcb]
      rw [hz]
      exact Or.inl rfl

/-- A scanned token that contains no `[` contains no whitespace: the
name is word characters and hyphens, the value characters match
`[^\s\[]`, and a non-empty bracket part would contribute the `[`. -/
theorem scanTokenAt_no_ws {s t r : Str} (h : scanTokenAt s = some (t, r))
    (hnb : '[' ∉ t) : ∀ c ∈ t, c.isWhitespace = false := by
  unfold scanTokenAt at h
  cases hn : scanName s with
  | mk name rest =>
    rw [hn] at h
    cases name with
    | nil => simp at h
    | cons nc n' =>
      cases rest with
      | nil => simp at h
      | cons rc r2 =>
        have h' : (if rc = '=' then
              some ((nc :: n') ++ rc ::
                (r2.takeWhile isValChar ++ (scanBracket (r2.dropWhile isValChar)).1),
                (scanBracket (r2.dropWhile isValChar)).2)
            else none) = some (t, r) := h
        by_cases hrc : rc = '='
        · rw [if_pos hrc] at h'
          injection h' with h''
          have ht : t = (nc :: n') ++ rc ::
              (r2.takeWhile isValChar ++ (scanBracket (r2.dropWhile isValChar)).1) := by
            have := congrArg Prod.fst h''
            simpa using this.symm
          have hbr : (scanBracket (r2.dropWhile isValChar)).1 = [] := by
            rcases scanBracket_shape (r2.dropWhile isValChar) with hb | ⟨u, hb⟩
            · exact hb
            · exfalso
              apply hnb
              rw [ht, hb]
              simp
          intro c hcmem
          rw [ht, hbr] at hcmem
          simp only [List.append_nil, List.mem_append, List.mem_cons] at hcmem
          rcases hcmem with hcmem | hcmem
          · rcases scanName_chars (s := s) (c := c) (by rw [hn]; simpa using hcmem) with hw | rfl
            · exact wordChar_not_ws hw
            · rfl
          rcases hcmem with rfl | hcmem
          · rw [hrc]; rfl
          · have hv := List.mem_takeWhile_imp hcmem
            simp only [isValChar, Bool.and_eq_true, Bool.not_eq_true'] at hv
            exact hv.1
        · rw [if_neg hrc] at h'
          exact absurd h' (by simp)

/-- Tokens of the improved splitter without a `[` contain no
whitespace. -/
theorem tokens_no_ws :
    ∀ (f : Nat) (s t : Str), t ∈ saiLoopF f s → '[' ∉ t →
      ∀ c ∈ t, c.isWhitespace = false := by
  intro f
  induction f with
  | zero => intro s t ht; simp [saiLoopF] at ht
  | succ g ih =>
    intro s t ht hnb
    cases s with
    | nil => simp [saiLoopF] at ht
    | cons c rest =>
      simp only [saiLoopF] at ht
      cases hsc : scanTokenAt (c :: rest) with
      | none =>
        rw [hsc] at ht
        exact ih rest t ht hnb
      | some p =>
        rw [hsc] at ht
        rcases List.mem_cons.mp ht with rfl | ht
        · exact scanTokenAt_no_ws (r := p.2) (by rw [hsc]) hnb
        · exact ih p.2 t ht hnb

/-- `dropWhile` is the identity when no element satisfies the
predicate. -/
theorem dropWhile_eq_self_of {p : Char → Bool} : ∀ {l : Str}, (∀ c ∈ l, p c = false) →
    l.dropWhile p = l := by
  intro l h
  cases l with
  | nil => rfl
  | cons c rest =>
    rw [List.dropWhile_cons, if_neg (by rw [h c (List.mem_cons_self c rest)]; simp)]

/-- `strip()` is the identity on whitespace-free strings. -/
theorem pyStripWs_eq_self {t : Str} (h : ∀ c ∈ t, c.isWhitespace = false) :
    pyStripWs t = t := by
  unfold pyStripWs
  rw [dropWhile_eq_self_of h,
    dropWhile_eq_self_of (fun c hc => h c (List.mem_reverse.mp hc)),
    List.reverse_reverse]

/-- The whitespace splitter leaves a whitespace-free string whole. -/
theorem splitWsAuxF_no_ws :
    ∀ (t : Str), (∀ c ∈ t, c.isWhitespace = false) →
      ∀ (f : Nat) (acc : Str), t.length < f → splitWsAuxF f acc t = [acc.reverse ++ t] := by
  intro t
  induction t with
  | nil =>
    intro _ f acc hf
    cases f with
    | zero => omega
    | succ g => simp [splitWsAuxF]
  | cons c rest ih =>
    intro h f acc hf
    cases f with
    | zero => omega
    | succ g =>
      simp only [splitWsAuxF]
      rw [if_neg (by rw [h c (List.mem_cons_self c rest)]; simp)]
      rw [ih (fun d hd => h d (List.mem_cons_of_mem c hd)) g (c :: acc)
        (by simp only [List.length_cons] at hf; omega)]
      simp

/-- `re.split(r'\s+', t) = [t]` for whitespace-free `t`. -/
theorem splitWs_single (t : Str) (h : ∀ c ∈ t, c.isWhitespace = false) :
    splitWs t = [t] := by
  unfold splitWs
  rw [splitWsAuxF_no_ws t h _ [] (Nat.lt_succ_self _)]
  simp

/-- `split('=', 1)` splits at the first `=`. -/
theorem splitOnce_append : ∀ (k v : Str), (∀ c ∈ k, ¬ c = '=') →
    splitOnce '=' (k ++ '=' :: v) = (k, v) := by
  intro k
  induction k with
  | nil => intro v _; simp [splitOnce]
  | cons c k' ih =>
    intro v h
    have hc : ¬ c = '=' := h c (List.mem_cons_self c k')
    simp only [List.cons_append, splitOnce, List.append_eq]
    rw [if_neg (by simpa using hc), ih v (fun d hd => h d (List.mem_cons_of_mem c hd))]

/-- The just-inserted key is present. -/
theorem hasKey_dictInsert_self (m : List (Str × AttrValue)) (k : Str) (v : AttrValue) :
    hasKey (dictInsert m k v) k = true := by
  unfold hasKey dictInsert
  by_cases hc : m.any (fun p => p.1 == k) = true
  · rw [if_pos hc]
    obtain ⟨p, hp, hpk⟩ := List.any_eq_true.mp hc
    refine List.any_eq_true.mpr ⟨(k, v), List.mem_map.mpr ⟨p, hp, ?_⟩, by simp⟩
    rw [if_pos hpk]
  · rw [if_neg hc]
    exact List.any_eq_true.mpr
      ⟨(k, v), List.mem_append.mpr (Or.inr (List.mem_singleton_self _)), by simp⟩

/-- Keys are never removed by a dict assignment. -/
theorem hasKey_dictInsert_mono {m : List (Str × AttrValue)} {k : Str}
    (h : hasKey m k = true) (k' : Str) (v : AttrValue) :
    hasKey (dictInsert m k' v) k = true := by
  unfold hasKey at h
  unfold hasKey dictInsert
  obtain ⟨p, hp, hpk⟩ := List.any_eq_true.mp h
  by_cases hc : m.any (fun q => q.1 == k') = true
  · rw [if_pos hc]
    by_cases hpk' : (p.1 == k') = true
    · have hk'k : k' = k := by
        have h1 : p.1 = k' := by simpa using hpk'
        have h2 : p.1 = k := by simpa using hpk
        rw [← h1, h2]
      refine List.any_eq_true.mpr
        ⟨(k', v), List.mem_map.mpr ⟨p, hp, by rw [if_pos hpk']⟩, by simp [hk'k]⟩
    · refine List.any_eq_true.mpr
        ⟨p, List.mem_map.mpr ⟨p, hp, by rw [if_neg hpk']⟩, hpk⟩
  · rw [if_neg hc]
    exact List.any_eq_true.mpr ⟨p, List.mem_append.mpr (Or.inl hp), hpk⟩

/-- A key present before a fold of key-preserving steps is present
after. -/
theorem foldl_hasKey {β : Type} (g : List (Str × AttrValue) → β → List (Str × AttrValue))
    (k : Str) (hg : ∀ m b, hasKey m k = true → hasKey (g m b) k = true) :
    ∀ (l : List β) (m : List (Str × AttrValue)),
      hasKey m k = true → hasKey (List.foldl g m l) k = true := by
  intro l
  induction l with
  | nil => intro m h; simpa using h
  | cons b rest ih => intro m h; exact ih (g m b) (hg m b h)

/-- The bracket-branch processor preserves present keys. -/
theorem applyBrPair_hasKey (k : Str) :
    ∀ (m : List (Str × AttrValue)) (b : BrPair),
      hasKey m k = true → hasKey (applyBrPair m b) k = true := by
  intro m b h
  cases b with
  | brList k' c => exact hasKey_dictInsert_mono h _ _
  | brScalar k' v => exact hasKey_dictInsert_mono h _ _

/-- The scalar-piece processor preserves present keys. -/
theorem scalarStep_hasKey (k : Str) :
    ∀ (m : List (Str × AttrValue)) (a : Str),
      hasKey m k = true → hasKey (scalarStep m a) k = true := by
  intro m a h
  unfold scalarStep
  by_cases hc : a.contains '=' = true
  · rw [if_pos hc]
    exact hasKey_dictInsert_mono h _ _
  · rw [if_neg hc]
    exact h

/-- The per-token step preserves present keys. -/
theorem parseStep_hasKey (s k : Str) :
    ∀ (m : List (Str × AttrValue)) (t : Str),
      hasKey m k = true → hasKey (parseStep s m t) k = true := by
  intro m t h
  unfold parseStep
  by_cases hc : t.contains '[' = true
  · rw [if_pos hc]
    exact foldl_hasKey _ k (applyBrPair_hasKey k) _ m h
  · rw [if_neg hc]
    exact foldl_hasKey _ k (scalarStep_hasKey k) _ m h

/-- Claim C4 (confirmed).  General part: every token of shape
`key=value` (no bracketed list inside the token) whose key is made of
word characters and hyphens produces an entry under the full hyphenated
key — whatever else the attribute string contains, including bracketed
list tokens.  Particular part: `"lang=zh data-v-52866abc="` parses to
`{lang: "zh", "data-v-52866abc": ""}` with the empty value
preserved. -/
theorem c4_hyphenated_scalar_keys :
    (∀ (s k v : Str), (k ++ '=' :: v) ∈ split_attributes_improved s →
      '[' ∉ (k ++ '=' :: v) → k ≠ [] →
      (∀ c ∈ k, isWordChar c = true ∨ c = '-') → '-' ∈ k →
      hasKey (parse_attributes s) k = true)
    ∧ parse_attributes (strL "lang=zh data-v-52866abc=")
        = [(strL "lang", .str (strL "zh")), (strL "data-v-52866abc", .str [])] := by
  constructor
  · intro s k v hmem hnb hkne hkc _
    obtain ⟨l1, l2, htok⟩ := List.append_of_mem hmem
    unfold parse_attributes
    rw [htok, List.foldl_append, List.foldl_cons]
    apply foldl_hasKey _ _ (parseStep_hasKey s k) l2
    have hnws : ∀ c ∈ (k ++ '=' :: v), c.isWhitespace = false := fun c hc =>
      tokens_no_ws (s.length + 1) s _ hmem hnb c hc
    unfold parseStep
    have hcont : (k ++ '=' :: v).contains '[' = false := by
      cases hcb : (k ++ '=' :: v).contains '[' with
      | false => rfl
      | true => exact absurd (by simpa using hcb) hnb
    rw [if_neg (by rw [hcont]; simp)]
    rw [pyStripWs_eq_self hnws, splitWs_single _ hnws]
    simp only [List.foldl_cons, List.foldl_nil]
    unfold scalarStep
    have hceq : (k ++ '=' :: v).contains '=' = true := by
      have : '=' ∈ k ++ '=' :: v := by simp
      simpa using this
    rw [if_pos hceq]
    rw [splitOnce_append k v (fun c hc => by
      rcases hkc c hc with hw | rfl
      · exact wordChar_ne_eq hw
      · decide)]
    exact hasKey_dictInsert_self _ k _
  · decide

/-- Witness for C4 on a string mixing a bracketed list token with a
hyphenated scalar token: the full hyphenated key is present. -/
theorem c4_hyphenated_scalar_keys_witness :
    hasKey (parse_attributes (strL "class=[a, b] data-v-5=x")) (strL "data-v-5") = true :=
  c4_hyphenated_scalar_keys.1 (strL "class=[a, b] data-v-5=x") (strL "data-v-5") (strL "x")
    (by decide) (by decide) (by decide) (by decide) (by decide)
